import Mathlib

/-!
Shallow embedding of `src/src/borsh.rs` from the `indexmap` repository:
the borsh binary codec for the ordered containers `IndexMap` and `IndexSet`.

Modelling conventions:
* A byte stream is a `List Nat` (each byte a value `< 256` when produced by
  an encoder).  A Rust `&mut W : Write` is threaded as an explicit output
  list; a Rust `&mut R : Read` as an explicit input list that decoding
  consumes from the front.
* Field-level borsh codecs for the generic parameters `K`, `V`, `T` are an
  explicit `Codec` record: the type's `core::mem::size_of` value together
  with its `BorshSerialize`/`BorshDeserialize` functions.
* `borsh::io::Error` values are collapsed to the two shapes the file
  produces: the `InvalidData` error carrying the fixed
  "zero-sized types are forbidden" diagnostic (`ERROR_ZST_FORBIDDEN`), and a
  plain `InvalidData`/field-failure error.
* Machine integers are `Nat` with explicit bounds: the `u32` length prefix
  is four little-endian base-256 digits, and `u32::try_from(len)` fails
  exactly when `len ≥ 2^32 = 4294967296`.
-/

namespace IndexmapBorsh

/-- The error shapes produced by `src/src/borsh.rs` and the borsh primitives
it calls: `zstForbidden` is `Error::new(ErrorKind::InvalidData, ERROR_ZST_FORBIDDEN)`
(diagnostic "zero-sized types are forbidden"); `invalidData` covers the bare
`ErrorKind::InvalidData` from the length-overflow check and any propagated
field-codec failure. -/
inductive BorshErr where
  | zstForbidden
  | invalidData
deriving DecidableEq

/-- Little-endian 4-byte encoding of a `u32` value, as `u32::serialize` writes it. -/
def u32LE (n : Nat) : List Nat :=
  [n % 256, n / 256 % 256, n / 65536 % 256, n / 16777216 % 256]

/-- Little-endian 4-byte decode of a `u32`, as `u32::deserialize_reader` reads it:
consumes four bytes, fails on a shorter stream. -/
def u32Dec : List Nat → Option (Nat × List Nat)
  | b0 :: b1 :: b2 :: b3 :: rest =>
      some (b0 + 256 * b1 + 65536 * b2 + 16777216 * b3, rest)
  | _ => none

/-- A borsh field codec for a Rust type: its `core::mem::size_of` value and its
`BorshSerialize`/`BorshDeserialize` implementations.  `dec` returns the decoded
value and the remaining input, or `none` on failure. -/
structure Codec (γ : Type) where
  size : Nat
  enc : γ → List Nat
  dec : List Nat → Option (γ × List Nat)

/-- A codec is lawful when decoding undoes encoding, leaving the rest of the
stream untouched — the borsh round-trip contract for field types. -/
def Codec.Lawful (c : Codec γ) : Prop :=
  ∀ a rest, c.dec (c.enc a ++ rest) = some (a, rest)

/-- The borsh codec for a Rust tuple `(K, V)`: fields are encoded and decoded
in order; the size is zero exactly when both components are zero-sized
(matching `size_of::<(K, V)>() == 0`). -/
def pairCodec (ck : Codec α) (cv : Codec β) : Codec (α × β) where
  size := ck.size + cv.size
  enc := fun p => ck.enc p.1 ++ cv.enc p.2
  dec := fun input =>
    match ck.dec input with
    | none => none
    | some (k, r1) =>
      match cv.dec r1 with
      | none => none
      | some (v, r2) => some ((k, v), r2)

/-- Sequentially read `n` elements with codec `c`, as the loop in borsh's
`Vec::deserialize_reader` does.  On a failed element read the error is
propagated and the input is returned at the point of failure. -/
def readElems (c : Codec γ) : Nat → List Nat → Except BorshErr (List γ) × List Nat
  | 0, input => (Except.ok [], input)
  | n + 1, input =>
    match c.dec input with
    | none => (Except.error BorshErr.invalidData, input)
    | some (x, rest) =>
      match readElems c n rest with
      | (Except.ok xs, rest2) => (Except.ok (x :: xs), rest2)
      | (Except.error e, rest2) => (Except.error e, rest2)

/-- borsh's `Vec::<T>::deserialize_reader`: first its own zero-sized-type
guard (`check_zst::<T>`), then the `u32` length, then that many sequential
element reads. -/
def vecDeserialize (c : Codec γ) (input : List Nat) :
    Except BorshErr (List γ) × List Nat :=
  if c.size = 0 then (Except.error BorshErr.zstForbidden, input)
  else
    match u32Dec input with
    | none => (Except.error BorshErr.invalidData, input)
    | some (len, rest) => readElems c len rest

/-- The key ordering used by `vec.sort_by(|(a, _), (b, _)| a.cmp(b))` in
`IndexMap::serialize`: compare entries by their key component only. -/
def keyLE [LinearOrder α] (p q : α × β) : Prop :=
  p.1 ≤ q.1

instance [LinearOrder α] : DecidableRel (keyLE (α := α) (β := β)) :=
  fun p q => inferInstanceAs (Decidable (p.1 ≤ q.1))

instance [LinearOrder α] : IsTotal (α × β) keyLE :=
  ⟨fun p q => le_total p.1 q.1⟩

instance [LinearOrder α] : IsTrans (α × β) keyLE :=
  ⟨fun _ _ _ h1 h2 => le_trans h1 h2⟩

/-- The ordered map, reduced to what the codec observes of it: its entry
sequence in enumeration order.  (The auxiliary hash index that gives O(1)
lookup is irrelevant to the byte-level behaviour.) -/
structure IndexMap (α β : Type) where
  entries : List (α × β)
deriving DecidableEq

/-- The keys of a map in enumeration order. -/
def IndexMap.keys (m : IndexMap α β) : List α :=
  m.entries.map Prod.fst

/-- Modelled from the spec: the container insertion primitive of
`crate::map::IndexMap` (the map implementation is not under `src/`; only the
codec is).  Per §3 and §6 of the spec, a later insert of an existing key
updates the value in place — the key keeps the enumeration position of its
first insertion — and a new key is appended at the end of the order. -/
def insertEntry [DecidableEq α] : List (α × β) → α → β → List (α × β)
  | [], k, v => [(k, v)]
  | (k0, v0) :: rest, k, v =>
      if k0 = k then (k0, v) :: rest else (k0, v0) :: insertEntry rest k v

/-- Map insertion (see `insertEntry`). -/
def IndexMap.insert [DecidableEq α] (m : IndexMap α β) (k : α) (v : β) :
    IndexMap α β :=
  ⟨insertEntry m.entries k v⟩

/-- `vec.into_iter().collect::<IndexMap<K, V, H>>()`: build a map by inserting
the entries sequentially into a fresh empty container. -/
def IndexMap.ofList [DecidableEq α] (es : List (α × β)) : IndexMap α β :=
  es.foldl (fun m p => m.insert p.1 p.2) ⟨[]⟩

/-- Key lookup on the model: the value stored at the (unique) position of `k`. -/
def IndexMap.get? [DecidableEq α] (m : IndexMap α β) (k : α) : Option β :=
  (m.entries.find? (fun p => p.1 == k)).map Prod.snd

/-- `IndexMap::serialize` from `src/src/borsh.rs`: run `check_zst::<K>`,
collect the entries, sort them by key (`sort_by` is a stable ascending sort,
modelled by `List.insertionSort` on `keyLE`), convert the length to `u32`
(failing with `InvalidData` when it exceeds `u32::MAX`), write the length,
then write each key and value.  The writer `w` is returned alongside the
result; on an error nothing has been written to it. -/
def IndexMap.serialize [LinearOrder α] (ck : Codec α) (cv : Codec β)
    (m : IndexMap α β) (w : List Nat) : Except BorshErr Unit × List Nat :=
  if ck.size = 0 then (Except.error BorshErr.zstForbidden, w)
  else
    let vec := List.insertionSort keyLE m.entries
    if vec.length < 4294967296 then
      (Except.ok (),
        w ++ u32LE vec.length ++ vec.flatMap (fun p => ck.enc p.1 ++ cv.enc p.2))
    else (Except.error BorshErr.invalidData, w)

/-- `IndexMap::deserialize_reader` from `src/src/borsh.rs`: run
`check_zst::<K>`, decode a `Vec<(K, V)>`, then collect it into a map by
sequential insertion. -/
def IndexMap.deserialize [DecidableEq α] (ck : Codec α) (cv : Codec β)
    (input : List Nat) : Except BorshErr (IndexMap α β) × List Nat :=
  if ck.size = 0 then (Except.error BorshErr.zstForbidden, input)
  else
    match vecDeserialize (pairCodec ck cv) input with
    | (Except.ok es, rest) => (Except.ok (IndexMap.ofList es), rest)
    | (Except.error e, rest) => (Except.error e, rest)

/-- The ordered set, reduced to its element sequence in enumeration order. -/
structure IndexSet (α : Type) where
  elems : List α
deriving DecidableEq

/-- Modelled from the spec: the container insertion primitive of
`crate::set::IndexSet` (the set implementation is not under `src/`).  Per §3
and §6 of the spec the set is the map with the value elided: inserting an
element already present leaves the set unchanged (the element keeps its
first-insertion position); a new element is appended. -/
def IndexSet.insert [DecidableEq α] (s : IndexSet α) (x : α) : IndexSet α :=
  if x ∈ s.elems then s else ⟨s.elems ++ [x]⟩

/-- `vec.into_iter().collect::<IndexSet<T, H>>()`. -/
def IndexSet.ofList [DecidableEq α] (xs : List α) : IndexSet α :=
  xs.foldl (fun s x => s.insert x) ⟨[]⟩

/-- `IndexSet::serialize` from `src/src/borsh.rs`: run `check_zst::<T>`,
collect, `vec.sort()` (stable ascending sort under the element order),
`u32` length, then the elements. -/
def IndexSet.serialize [LinearOrder α] (c : Codec α) (s : IndexSet α)
    (w : List Nat) : Except BorshErr Unit × List Nat :=
  if c.size = 0 then (Except.error BorshErr.zstForbidden, w)
  else
    let vec := List.insertionSort (· ≤ ·) s.elems
    if vec.length < 4294967296 then
      (Except.ok (), w ++ u32LE vec.length ++ vec.flatMap c.enc)
    else (Except.error BorshErr.invalidData, w)

/-- `IndexSet::deserialize_reader` from `src/src/borsh.rs`: decode a `Vec<T>`
and collect it.  Note the source performs no `check_zst` of its own here; the
zero-sized-type guard that fires is the one inside borsh's
`Vec::deserialize_reader` (see `vecDeserialize`). -/
def IndexSet.deserialize [DecidableEq α] (c : Codec α) (input : List Nat) :
    Except BorshErr (IndexSet α) × List Nat :=
  match vecDeserialize c input with
  | (Except.ok xs, rest) => (Except.ok (IndexSet.ofList xs), rest)
  | (Except.error e, rest) => (Except.error e, rest)

/-- Modelled from the spec: the Iteration-Order Encoding variant (§4.3 of the
spec).  It is absent from `src/` — the file under `src/` holds only the
Canonical-Sort variant — so it is modelled from the spec's words: run the
zero-size guard, fail when the count cannot be represented in 32 bits, write
the count, then write the entries in the container's current enumeration
order with no materialize/sort step. -/
def IndexMap.serializeIterOrder (ck : Codec α) (cv : Codec β)
    (m : IndexMap α β) (w : List Nat) : Except BorshErr Unit × List Nat :=
  if ck.size = 0 then (Except.error BorshErr.zstForbidden, w)
  else
    if m.entries.length < 4294967296 then
      (Except.ok (),
        w ++ u32LE m.entries.length ++
          m.entries.flatMap (fun p => ck.enc p.1 ++ cv.enc p.2))
    else (Except.error BorshErr.invalidData, w)

/-- The 32-bit unsigned integer type (keys and values of the concrete
scenarios; a non-negative `i32` has the same little-endian encoding). -/
abbrev U32 := Fin 4294967296

/-- The borsh codec for `u32`: size 4, little-endian bytes. -/
def u32Codec : Codec U32 where
  size := 4
  enc := fun n => u32LE n.val
  dec := fun input =>
    match u32Dec input with
    | none => none
    | some (v, rest) => some (⟨v % 4294967296, Nat.mod_lt v (by omega)⟩, rest)

/-- The borsh codec of a zero-sized Rust type such as `()`: size 0, no bytes. -/
def unitCodec : Codec Unit where
  size := 0
  enc := fun _ => []
  dec := fun input => some ((), input)

/-! ### Lemmas about the byte-level primitives -/

theorem u32Dec_u32LE (n : Nat) (h : n < 4294967296) (rest : List Nat) :
    u32Dec (u32LE n ++ rest) = some (n, rest) := by
  simp only [u32LE, List.cons_append, List.nil_append, u32Dec]
  congr 2
  omega

theorem u32Codec_lawful : u32Codec.Lawful := by
  intro a rest
  have ha := a.isLt
  have hmod : (a.val % 256 + 256 * (a.val / 256 % 256) + 65536 * (a.val / 65536 % 256) +
      16777216 * (a.val / 16777216 % 256)) % 4294967296 = a.val := by omega
  simp only [u32Codec, u32LE, List.cons_append, List.nil_append, u32Dec]
  congr 2
  exact Fin.ext hmod

theorem pairCodec_lawful {ck : Codec α} {cv : Codec β}
    (hk : ck.Lawful) (hv : cv.Lawful) : (pairCodec ck cv).Lawful := by
  intro p rest
  simp only [pairCodec, List.append_assoc]
  rw [hk p.1 (cv.enc p.2 ++ rest)]
  simp only
  rw [hv p.2 rest]

theorem readElems_flatMap (c : Codec γ) (hc : c.Lawful) :
    ∀ (xs : List γ) (rest : List Nat),
      readElems c xs.length (xs.flatMap c.enc ++ rest) = (Except.ok xs, rest)
  | [], rest => by simp [readElems]
  | x :: xs, rest => by
    simp only [List.flatMap_cons, List.length_cons, List.append_assoc, readElems]
    rw [hc x (xs.flatMap c.enc ++ rest)]
    simp only
    rw [readElems_flatMap c hc xs rest]

theorem vecDeserialize_enc (c : Codec γ) (hc : c.Lawful) (hz : c.size ≠ 0)
    (xs : List γ) (hlen : xs.length < 4294967296) (rest : List Nat) :
    vecDeserialize c (u32LE xs.length ++ xs.flatMap c.enc ++ rest) =
      (Except.ok xs, rest) := by
  simp only [vecDeserialize, hz, if_neg hz, List.append_assoc]
  rw [u32Dec_u32LE xs.length hlen]
  exact readElems_flatMap c hc xs rest

theorem readElems_ne_zst (c : Codec γ) :
    ∀ (n : Nat) (input : List Nat),
      (readElems c n input).1 ≠ Except.error BorshErr.zstForbidden
  | 0, input => by simp [readElems]
  | n + 1, input => by
    simp only [readElems]
    match hd : c.dec input with
    | none => simp
    | some (x, rest) =>
      simp only
      match hr : readElems c n rest with
      | (Except.ok xs, rest2) => simp
      | (Except.error e, rest2) =>
        have := readElems_ne_zst c n rest
        rw [hr] at this
        simpa using this

/-! ### Lemmas about the container model -/

theorem insertEntry_of_not_mem [DecidableEq α] {k : α} (v : β) :
    ∀ (l : List (α × β)), k ∉ l.map Prod.fst → insertEntry l k v = l ++ [(k, v)] := by
  intro l
  induction l with
  | nil => intro _; rfl
  | cons p rest ih =>
    intro h
    obtain ⟨k0, v0⟩ := p
    simp only [List.map_cons, List.mem_cons, not_or] at h
    simp only [insertEntry, if_neg (Ne.symm h.1), List.cons_append, ih h.2]

theorem insertEntry_replace [DecidableEq α] (k : α) (v1 v2 : β) :
    ∀ (a b : List (α × β)), k ∉ a.map Prod.fst →
      insertEntry (a ++ (k, v1) :: b) k v2 = a ++ (k, v2) :: b := by
  intro a
  induction a with
  | nil => intro b _; simp [insertEntry]
  | cons p a2 ih =>
    intro b h
    obtain ⟨k0, v0⟩ := p
    simp only [List.map_cons, List.mem_cons, not_or] at h
    simp only [List.cons_append, insertEntry, if_neg (Ne.symm h.1), List.append_eq,
      ih b h.2]

theorem keys_insertEntry [DecidableEq α] (k : α) (v : β) :
    ∀ (l : List (α × β)), (insertEntry l k v).map Prod.fst =
      if k ∈ l.map Prod.fst then l.map Prod.fst else l.map Prod.fst ++ [k] := by
  intro l
  induction l with
  | nil => simp [insertEntry]
  | cons p rest ih =>
    obtain ⟨k0, v0⟩ := p
    by_cases hk : k0 = k
    · subst hk
      simp [insertEntry]
    · simp only [insertEntry, if_neg hk, List.map_cons, ih, List.mem_cons]
      by_cases hm : k ∈ rest.map Prod.fst
      · simp [hm, Ne.symm hk]
      · simp [hm, Ne.symm hk]

theorem nodup_keys_insertEntry [DecidableEq α] (k : α) (v : β)
    (l : List (α × β)) (h : (l.map Prod.fst).Nodup) :
    ((insertEntry l k v).map Prod.fst).Nodup := by
  rw [keys_insertEntry]
  by_cases hm : k ∈ l.map Prod.fst
  · simpa [hm] using h
  · simp [hm, List.nodup_append, h]

theorem nodup_keys_foldl_insert [DecidableEq α] :
    ∀ (es : List (α × β)) (m : IndexMap α β), m.keys.Nodup →
      (es.foldl (fun m p => m.insert p.1 p.2) m).keys.Nodup := by
  intro es
  induction es with
  | nil => intro m h; simpa using h
  | cons p rest ih =>
    intro m h
    simp only [List.foldl_cons]
    exact ih _ (nodup_keys_insertEntry p.1 p.2 m.entries h)

theorem nodup_keys_ofList [DecidableEq α] (es : List (α × β)) :
    (IndexMap.ofList es).keys.Nodup := by
  simp only [IndexMap.ofList]
  exact nodup_keys_foldl_insert es ⟨[]⟩ (by simp [IndexMap.keys])

theorem foldl_insert_entries [DecidableEq α] :
    ∀ (es : List (α × β)) (acc : List (α × β)),
      (es.map Prod.fst).Nodup →
      (∀ k ∈ es.map Prod.fst, k ∉ acc.map Prod.fst) →
      (es.foldl (fun m p => m.insert p.1 p.2) (⟨acc⟩ : IndexMap α β)).entries =
        acc ++ es := by
  intro es
  induction es with
  | nil => intro acc _ _; simp
  | cons p rest ih =>
    intro acc hnd hdisj
    obtain ⟨k, v⟩ := p
    simp only [List.map_cons, List.nodup_cons] at hnd
    have hk : k ∉ acc.map Prod.fst := hdisj k (by simp)
    have h1 : (⟨acc⟩ : IndexMap α β).insert k v = ⟨acc ++ [(k, v)]⟩ := by
      simp only [IndexMap.insert, insertEntry_of_not_mem v acc hk]
    simp only [List.foldl_cons, h1]
    rw [ih (acc ++ [(k, v)]) hnd.2]
    · simp
    · intro k2 hk2
      simp only [List.map_append, List.mem_append, List.map_cons, List.map_nil,
        List.mem_singleton, not_or]
      refine ⟨hdisj k2 (by simp [hk2]), ?_⟩
      intro hkk
      exact hnd.1 (hkk ▸ hk2)

theorem ofList_entries_of_nodup [DecidableEq α] (es : List (α × β))
    (h : (es.map Prod.fst).Nodup) : (IndexMap.ofList es).entries = es := by
  simp only [IndexMap.ofList]
  rw [foldl_insert_entries es [] h (by simp)]
  simp

theorem get?_insert [DecidableEq α] (m : IndexMap α β) (k0 : α) (v0 : β) (k : α) :
    (m.insert k0 v0).get? k = if k0 = k then some v0 else m.get? k := by
  obtain ⟨l⟩ := m
  simp only [IndexMap.insert, IndexMap.get?]
  induction l with
  | nil =>
    by_cases h : k0 = k
    · have hb : (k0 == k) = true := beq_iff_eq.mpr h
      simp [insertEntry, List.find?, hb, h]
    · have hb : (k0 == k) = false := beq_eq_false_iff_ne.mpr h
      simp [insertEntry, List.find?, hb, h]
  | cons p rest ih =>
    obtain ⟨k1, v1⟩ := p
    by_cases h10 : k1 = k0
    · subst h10
      by_cases h1k : k1 = k
      · have hb : (k1 == k) = true := beq_iff_eq.mpr h1k
        simp [insertEntry, List.find?, hb, h1k]
      · have hb : (k1 == k) = false := beq_eq_false_iff_ne.mpr h1k
        simp [insertEntry, List.find?, hb, h1k]
    · by_cases h1k : k1 = k
      · subst h1k
        have h0k : ¬k0 = k1 := fun h => h10 h.symm
        have hb : (k1 == k1) = true := beq_iff_eq.mpr rfl
        simp [insertEntry, if_neg h10, List.find?, hb, h0k]
      · have hb : (k1 == k) = false := beq_eq_false_iff_ne.mpr h1k
        simp only [insertEntry, if_neg h10, List.find?, hb]
        exact ih

theorem get?_foldl_insert [DecidableEq α] :
    ∀ (es : List (α × β)) (m : IndexMap α β) (k : α),
      (es.foldl (fun m p => m.insert p.1 p.2) m).get? k =
        es.foldl (fun acc p => if p.1 = k then some p.2 else acc) (m.get? k) := by
  intro es
  induction es with
  | nil => intro m k; rfl
  | cons p rest ih =>
    intro m k
    simp only [List.foldl_cons, ih, get?_insert]

theorem foldl_lastVal_of_not_mem [DecidableEq α] {k : α} :
    ∀ (l : List (α × β)) (acc : Option β), k ∉ l.map Prod.fst →
      l.foldl (fun acc p => if p.1 = k then some p.2 else acc) acc = acc := by
  intro l
  induction l with
  | nil => intro acc _; rfl
  | cons p rest ih =>
    intro acc h
    simp only [List.map_cons, List.mem_cons, not_or] at h
    simp only [List.foldl_cons, if_neg (Ne.symm h.1), ih acc h.2]

theorem mem_keys_of_get?_eq_some [DecidableEq α] {m : IndexMap α β} {k : α}
    {v : β} (h : m.get? k = some v) : k ∈ m.keys := by
  simp only [IndexMap.get?, Option.map_eq_some'] at h
  obtain ⟨p, hp, _⟩ := h
  have hmem := List.mem_of_find?_eq_some hp
  have hkey := List.find?_some hp
  simp only [beq_iff_eq] at hkey
  exact hkey ▸ List.mem_map_of_mem Prod.fst hmem

theorem mem_insertS [DecidableEq α] (s : IndexSet α) (x y : α) :
    y ∈ (s.insert x).elems ↔ y ∈ s.elems ∨ y = x := by
  simp only [IndexSet.insert]
  by_cases h : x ∈ s.elems
  · simp only [if_pos h]
    constructor
    · exact Or.inl
    · rintro (hy | rfl)
      · exact hy
      · exact h
  · simp [if_neg h]

theorem nodup_insertS [DecidableEq α] (s : IndexSet α) (x : α)
    (h : s.elems.Nodup) : (s.insert x).elems.Nodup := by
  simp only [IndexSet.insert]
  by_cases hm : x ∈ s.elems
  · simpa [if_pos hm] using h
  · simp [if_neg hm, List.nodup_append, h, hm]

theorem mem_foldl_insertS [DecidableEq α] :
    ∀ (xs : List α) (s : IndexSet α) (y : α),
      y ∈ (xs.foldl (fun s x => s.insert x) s).elems ↔ y ∈ s.elems ∨ y ∈ xs := by
  intro xs
  induction xs with
  | nil => intro s y; simp
  | cons x rest ih =>
    intro s y
    simp only [List.foldl_cons, ih, mem_insertS, List.mem_cons]
    tauto

theorem nodup_foldl_insertS [DecidableEq α] :
    ∀ (xs : List α) (s : IndexSet α), s.elems.Nodup →
      (xs.foldl (fun s x => s.insert x) s).elems.Nodup := by
  intro xs
  induction xs with
  | nil => intro s h; simpa using h
  | cons x rest ih =>
    intro s h
    simp only [List.foldl_cons]
    exact ih _ (nodup_insertS s x h)

theorem mem_ofListS [DecidableEq α] (xs : List α) (y : α) :
    y ∈ (IndexSet.ofList xs).elems ↔ y ∈ xs := by
  simp [IndexSet.ofList, mem_foldl_insertS]

theorem nodup_ofListS [DecidableEq α] (xs : List α) :
    (IndexSet.ofList xs).elems.Nodup := by
  simp only [IndexSet.ofList]
  exact nodup_foldl_insertS xs ⟨[]⟩ (by simp)

theorem elems_perm_of_perm [DecidableEq α] {l1 l2 : List α} (h : l1.Perm l2) :
    (IndexSet.ofList l1).elems.Perm (IndexSet.ofList l2).elems := by
  refine (List.perm_ext_iff_of_nodup (nodup_ofListS l1) (nodup_ofListS l2)).mpr ?_
  intro a
  rw [mem_ofListS, mem_ofListS]
  exact h.mem_iff

/-! ### Lemmas about the codec operations -/

theorem map_serialize_eq [LinearOrder α] (ck : Codec α) (cv : Codec β)
    (hz : ¬ck.size = 0) (m : IndexMap α β) (w : List Nat)
    (hlen : m.entries.length < 4294967296) :
    IndexMap.serialize ck cv m w =
      (Except.ok (), w ++ u32LE m.entries.length ++
        (List.insertionSort keyLE m.entries).flatMap
          (fun p => ck.enc p.1 ++ cv.enc p.2)) := by
  simp only [IndexMap.serialize, if_neg hz]
  rw [List.length_insertionSort, if_pos hlen]

theorem map_deserialize_enc [DecidableEq α] (ck : Codec α) (cv : Codec β)
    (hk : ck.Lawful) (hv : cv.Lawful) (hz : ¬ck.size = 0)
    (es : List (α × β)) (hlen : es.length < 4294967296) :
    IndexMap.deserialize ck cv
        (u32LE es.length ++ es.flatMap (fun p => ck.enc p.1 ++ cv.enc p.2)) =
      (Except.ok (IndexMap.ofList es), []) := by
  have hz2 : ¬(pairCodec ck cv).size = 0 := by
    simp only [pairCodec]
    omega
  have hvec := vecDeserialize_enc (pairCodec ck cv) (pairCodec_lawful hk hv) hz2
      es hlen []
  simp only [List.append_nil] at hvec
  rw [show (fun p : α × β => ck.enc p.1 ++ cv.enc p.2) = (pairCodec ck cv).enc from rfl]
  simp only [IndexMap.deserialize, if_neg hz, hvec]

theorem map_decode_encode [LinearOrder α] (ck : Codec α) (cv : Codec β)
    (hk : ck.Lawful) (hv : cv.Lawful) (hz : ¬ck.size = 0)
    (m : IndexMap α β) (hlen : m.entries.length < 4294967296) :
    IndexMap.deserialize ck cv ((IndexMap.serialize ck cv m []).2) =
      (Except.ok (IndexMap.ofList (List.insertionSort keyLE m.entries)), []) := by
  rw [map_serialize_eq ck cv hz m [] hlen]
  have h := map_deserialize_enc ck cv hk hv hz (List.insertionSort keyLE m.entries)
      (by rw [List.length_insertionSort]; exact hlen)
  rw [List.length_insertionSort] at h
  simpa using h

theorem keys_sorted_nodup [LinearOrder α] {m : IndexMap α β}
    (hnd : m.keys.Nodup) :
    ((List.insertionSort keyLE m.entries).map Prod.fst).Nodup := by
  have hp : List.Perm ((List.insertionSort keyLE m.entries).map Prod.fst)
      (m.entries.map Prod.fst) :=
    (List.perm_insertionSort keyLE m.entries).map Prod.fst
  exact hp.nodup_iff.mpr hnd

theorem indexMap_eq_of_entries_eq {m : IndexMap α β} {l : List (α × β)}
    (h : m.entries = l) : m = ⟨l⟩ :=
  congrArg IndexMap.mk h

theorem vecDeserialize_ne_zst (c : Codec γ) (hz : ¬c.size = 0) (input : List Nat) :
    (vecDeserialize c input).1 ≠ Except.error BorshErr.zstForbidden := by
  simp only [vecDeserialize, if_neg hz]
  cases hu : u32Dec input with
  | none => simp
  | some p => exact readElems_ne_zst c p.1 p.2

/-! ### Claims -/

/-- C7: the map {1:2, 3:4, 5:6} of 32-bit integers, inserted in that order,
encodes to the byte sequence 03 00 00 00 | 01 00 00 00 | 02 00 00 00 |
03 00 00 00 | 04 00 00 00 | 05 00 00 00 | 06 00 00 00 (little-endian 4-byte
count, then little-endian 4-byte key/value pairs), and decoding those bytes
yields the same map with iteration order [(1,2),(3,4),(5,6)]. -/
theorem claim_C7 :
    IndexMap.ofList [((1 : U32), (2 : U32)), (3, 4), (5, 6)] =
      (⟨[(1, 2), (3, 4), (5, 6)]⟩ : IndexMap U32 U32) ∧
    IndexMap.serialize u32Codec u32Codec
        (IndexMap.ofList [((1 : U32), (2 : U32)), (3, 4), (5, 6)]) [] =
      (Except.ok (), [3, 0, 0, 0, 1, 0, 0, 0, 2, 0, 0, 0, 3, 0, 0, 0,
        4, 0, 0, 0, 5, 0, 0, 0, 6, 0, 0, 0]) ∧
    IndexMap.deserialize u32Codec u32Codec
        [3, 0, 0, 0, 1, 0, 0, 0, 2, 0, 0, 0, 3, 0, 0, 0,
          4, 0, 0, 0, 5, 0, 0, 0, 6, 0, 0, 0] =
      (Except.ok (⟨[(1, 2), (3, 4), (5, 6)]⟩ : IndexMap U32 U32), []) :=
  ⟨rfl, rfl, rfl⟩

/-- C4: a container whose entry count does not fit in 32 bits fails to encode
with an `InvalidData` error, raised before the length prefix or any entry is
written: the writer comes back unchanged. -/
theorem claim_C4 [LinearOrder α] [LinearOrder γ] (ck : Codec α) (cv : Codec β)
    (cs : Codec γ) (m : IndexMap α β) (s : IndexSet γ) (w1 w2 : List Nat) :
    (¬ck.size = 0 → 4294967296 ≤ m.entries.length →
      IndexMap.serialize ck cv m w1 = (Except.error BorshErr.invalidData, w1)) ∧
    (¬cs.size = 0 → 4294967296 ≤ s.elems.length →
      IndexSet.serialize cs s w2 = (Except.error BorshErr.invalidData, w2)) := by
  constructor
  · intro hz hbig
    simp only [IndexMap.serialize, if_neg hz]
    rw [List.length_insertionSort, if_neg (by omega)]
  · intro hz hbig
    simp only [IndexSet.serialize, if_neg hz]
    rw [List.length_insertionSort, if_neg (by omega)]

theorem claim_C4_witness :
    IndexMap.serialize u32Codec u32Codec
        (⟨List.replicate 4294967296 ((0 : U32), (0 : U32))⟩ : IndexMap U32 U32) [] =
      (Except.error BorshErr.invalidData, []) ∧
    IndexSet.serialize u32Codec
        (⟨List.replicate 4294967296 (0 : U32)⟩ : IndexSet U32) [] =
      (Except.error BorshErr.invalidData, []) :=
  ⟨(claim_C4 u32Codec u32Codec u32Codec
      ⟨List.replicate 4294967296 ((0 : U32), (0 : U32))⟩
      ⟨List.replicate 4294967296 (0 : U32)⟩ [] []).1
      (by decide) (by rw [List.length_replicate]),
   (claim_C4 u32Codec u32Codec u32Codec
      ⟨List.replicate 4294967296 ((0 : U32), (0 : U32))⟩
      ⟨List.replicate 4294967296 (0 : U32)⟩ [] []).2
      (by decide) (by rw [List.length_replicate])⟩

/-- C2: two ordered sets built from any two permutations of the same element
multiset (duplicates collapsing to the first occurrence) encode to byte-for-byte
identical output under the canonical-sort serializer. -/
theorem claim_C2 [LinearOrder α] (c : Codec α) (l1 l2 : List α) (w : List Nat)
    (hperm : List.Perm l1 l2) :
    IndexSet.serialize c (IndexSet.ofList l1) w =
      IndexSet.serialize c (IndexSet.ofList l2) w := by
  have hperm2 : List.Perm (IndexSet.ofList l1).elems (IndexSet.ofList l2).elems :=
    elems_perm_of_perm hperm
  have hsort : List.insertionSort (· ≤ ·) (IndexSet.ofList l1).elems =
      List.insertionSort (· ≤ ·) (IndexSet.ofList l2).elems := by
    refine List.eq_of_perm_of_sorted ?_ (List.sorted_insertionSort _ _)
      (List.sorted_insertionSort _ _)
    exact ((List.perm_insertionSort _ _).trans hperm2).trans
      (List.perm_insertionSort _ _).symm
  simp only [IndexSet.serialize]
  rw [hsort]

theorem claim_C2_witness :
    List.Perm [(2 : U32), 1, 2, 6] [6, 2, 2, 1] ∧
    IndexSet.serialize u32Codec (IndexSet.ofList [(2 : U32), 1, 2, 6]) [] =
      IndexSet.serialize u32Codec (IndexSet.ofList [(6 : U32), 2, 2, 1]) [] :=
  ⟨by decide, claim_C2 u32Codec [(2 : U32), 1, 2, 6] [6, 2, 2, 1] [] (by decide)⟩

/-- C3: a zero-sized key/element type makes both encode and decode fail with
the zero-size rejection error (`InvalidData`, "zero-sized types are
forbidden") before any entry bytes are written or read — the writer and the
reader come back untouched; the guard applies to map keys and set elements,
while map value types are exempt (with a nonzero-sized key, no zero-size
rejection is ever produced, whatever the value type's size). -/
theorem claim_C3 [LinearOrder α] [LinearOrder γ] (ck : Codec α) (cv : Codec β)
    (cs : Codec γ) (m : IndexMap α β) (s : IndexSet γ) (w : List Nat)
    (input : List Nat) :
    (ck.size = 0 →
      IndexMap.serialize ck cv m w = (Except.error BorshErr.zstForbidden, w) ∧
      IndexMap.deserialize ck cv input = (Except.error BorshErr.zstForbidden, input)) ∧
    (cs.size = 0 →
      IndexSet.serialize cs s w = (Except.error BorshErr.zstForbidden, w) ∧
      IndexSet.deserialize cs input = (Except.error BorshErr.zstForbidden, input)) ∧
    (¬ck.size = 0 →
      (IndexMap.serialize ck cv m w).1 ≠ Except.error BorshErr.zstForbidden ∧
      (IndexMap.deserialize ck cv input).1 ≠ Except.error BorshErr.zstForbidden) := by
  refine ⟨?_, ?_, ?_⟩
  · intro h
    constructor
    · simp [IndexMap.serialize, if_pos h]
    · simp [IndexMap.deserialize, if_pos h]
  · intro h
    constructor
    · simp [IndexSet.serialize, if_pos h]
    · simp [IndexSet.deserialize, vecDeserialize, if_pos h]
  · intro hz
    constructor
    · simp only [IndexMap.serialize, if_neg hz]
      by_cases hlen : m.entries.length < 4294967296
      · simp [List.length_insertionSort, if_pos hlen]
      · simp [List.length_insertionSort, if_neg hlen]
    · simp only [IndexMap.deserialize, if_neg hz]
      have hz2 : ¬(pairCodec ck cv).size = 0 := by
        simp only [pairCodec]
        omega
      have hne := vecDeserialize_ne_zst (pairCodec ck cv) hz2 input
      rcases hvd : vecDeserialize (pairCodec ck cv) input with ⟨r, rest⟩
      rw [hvd] at hne
      cases r with
      | ok es => simp
      | error e => simpa using hne

theorem claim_C3_witness :
    (IndexMap.serialize unitCodec u32Codec (⟨[((), 1)]⟩ : IndexMap Unit U32) [7] =
        (Except.error BorshErr.zstForbidden, [7]) ∧
      IndexMap.deserialize unitCodec u32Codec [1, 0] =
        (Except.error BorshErr.zstForbidden, [1, 0])) ∧
    (IndexSet.serialize unitCodec (⟨[()]⟩ : IndexSet Unit) [9] =
        (Except.error BorshErr.zstForbidden, [9]) ∧
      IndexSet.deserialize unitCodec [2, 0] =
        (Except.error BorshErr.zstForbidden, [2, 0])) ∧
    ((IndexMap.serialize u32Codec unitCodec (⟨[(1, ())]⟩ : IndexMap U32 Unit) []).1 ≠
        Except.error BorshErr.zstForbidden ∧
      (IndexMap.deserialize u32Codec unitCodec [0, 0, 0, 0]).1 ≠
        Except.error BorshErr.zstForbidden) :=
  ⟨(claim_C3 unitCodec u32Codec unitCodec ⟨[((), 1)]⟩ ⟨[()]⟩ [7] [1, 0]).1 rfl,
   (claim_C3 u32Codec u32Codec unitCodec ⟨[]⟩ ⟨[()]⟩ [9] [2, 0]).2.1 rfl,
   (claim_C3 u32Codec unitCodec u32Codec ⟨[(1, ())]⟩ ⟨[]⟩ [] [0, 0, 0, 0]).2.2
     (by decide)⟩

/-- C1: under the iteration-order encoding variant (modelled from the spec,
see `IndexMap.serializeIterOrder`), a map built by inserting entries with
unique keys in a given order round-trips through encode then decode to a map
equal in both content and enumeration order: the built map's entry sequence
is exactly the insertion sequence, encoding succeeds, and decoding the
produced bytes returns exactly that map. -/
theorem claim_C1 [DecidableEq α] (ck : Codec α) (cv : Codec β)
    (hk : ck.Lawful) (hv : cv.Lawful) (hz : ¬ck.size = 0)
    (l : List (α × β)) (hnd : (l.map Prod.fst).Nodup)
    (hlen : l.length < 4294967296) :
    (IndexMap.ofList l).entries = l ∧
    (IndexMap.serializeIterOrder ck cv (IndexMap.ofList l) []).1 = Except.ok () ∧
    IndexMap.deserialize ck cv
        ((IndexMap.serializeIterOrder ck cv (IndexMap.ofList l) []).2) =
      (Except.ok (IndexMap.ofList l), []) := by
  have he : (IndexMap.ofList l).entries = l := ofList_entries_of_nodup l hnd
  refine ⟨he, ?_, ?_⟩
  · simp only [IndexMap.serializeIterOrder, if_neg hz, he, if_pos hlen]
  · simp only [IndexMap.serializeIterOrder, if_neg hz, he, if_pos hlen,
      List.nil_append]
    exact map_deserialize_enc ck cv hk hv hz l hlen

theorem claim_C1_witness :
    (IndexMap.ofList [((3 : U32), (4 : U32)), (1, 2)]).entries = [(3, 4), (1, 2)] ∧
    (IndexMap.serializeIterOrder u32Codec u32Codec
        (IndexMap.ofList [((3 : U32), (4 : U32)), (1, 2)]) []).1 = Except.ok () ∧
    IndexMap.deserialize u32Codec u32Codec
        ((IndexMap.serializeIterOrder u32Codec u32Codec
          (IndexMap.ofList [((3 : U32), (4 : U32)), (1, 2)]) []).2) =
      (Except.ok (IndexMap.ofList [((3 : U32), (4 : U32)), (1, 2)]), []) :=
  claim_C1 u32Codec u32Codec u32Codec_lawful u32Codec_lawful (by decide)
    [((3 : U32), (4 : U32)), (1, 2)] (by decide) (by decide)

/-- C5: for a map with encodable entries and count within 32 bits, decode of
encode preserves the entry count; the empty container encodes to exactly the
four zero bytes and decodes back to the empty container consuming exactly
those four bytes (no entry reads). -/
theorem claim_C5 [LinearOrder α] (ck : Codec α) (cv : Codec β)
    (hk : ck.Lawful) (hv : cv.Lawful) (hz : ¬ck.size = 0)
    (m : IndexMap α β) (hnd : m.keys.Nodup) (hlen : m.entries.length < 4294967296)
    (w : List Nat) :
    ((IndexMap.serialize ck cv m []).1 = Except.ok () ∧
      ∃ m2 : IndexMap α β,
        IndexMap.deserialize ck cv ((IndexMap.serialize ck cv m []).2) =
          (Except.ok m2, []) ∧ m2.entries.length = m.entries.length) ∧
    IndexMap.serialize ck cv (⟨[]⟩ : IndexMap α β) w =
      (Except.ok (), w ++ [0, 0, 0, 0]) ∧
    IndexMap.deserialize ck cv [0, 0, 0, 0] =
      (Except.ok (⟨[]⟩ : IndexMap α β), []) := by
  refine ⟨⟨?_, ?_⟩, ?_, ?_⟩
  · rw [map_serialize_eq ck cv hz m [] hlen]
  · refine ⟨IndexMap.ofList (List.insertionSort keyLE m.entries),
      map_decode_encode ck cv hk hv hz m hlen, ?_⟩
    rw [ofList_entries_of_nodup _ (keys_sorted_nodup hnd), List.length_insertionSort]
  · have h := map_serialize_eq ck cv hz (⟨[]⟩ : IndexMap α β) w (by simp)
    simpa [u32LE] using h
  · have h := map_deserialize_enc ck cv hk hv hz [] (by simp)
    simpa [u32LE, IndexMap.ofList] using h

theorem claim_C5_witness :
    ((IndexMap.serialize u32Codec u32Codec
        (⟨[(2, 5), (1, 6)]⟩ : IndexMap U32 U32) []).1 = Except.ok () ∧
      ∃ m2 : IndexMap U32 U32,
        IndexMap.deserialize u32Codec u32Codec
            ((IndexMap.serialize u32Codec u32Codec
              (⟨[(2, 5), (1, 6)]⟩ : IndexMap U32 U32) []).2) =
          (Except.ok m2, []) ∧
        m2.entries.length = (⟨[(2, 5), (1, 6)]⟩ : IndexMap U32 U32).entries.length) ∧
    IndexMap.serialize u32Codec u32Codec (⟨[]⟩ : IndexMap U32 U32) [9] =
      (Except.ok (), [9] ++ [0, 0, 0, 0]) ∧
    IndexMap.deserialize u32Codec u32Codec [0, 0, 0, 0] =
      (Except.ok (⟨[]⟩ : IndexMap U32 U32), []) :=
  claim_C5 u32Codec u32Codec u32Codec_lawful u32Codec_lawful (by decide)
    ⟨[(2, 5), (1, 6)]⟩ (by decide) (by decide) [9]

/-- C8: whenever the byte stream is well-formed — the entry-vector layer
decodes successfully — and the decoded entry records carry pairwise-distinct
keys, the map produced by decode enumerates its entries in exactly the order
the entries appear in the byte stream. -/
theorem claim_C8 [DecidableEq α] (ck : Codec α) (cv : Codec β)
    (hz : ¬ck.size = 0) (input : List Nat) (es : List (α × β)) (rest : List Nat)
    (hdec : vecDeserialize (pairCodec ck cv) input = (Except.ok es, rest))
    (hnd : (es.map Prod.fst).Nodup) :
    IndexMap.deserialize ck cv input = (Except.ok (⟨es⟩ : IndexMap α β), rest) := by
  have hof : IndexMap.ofList es = (⟨es⟩ : IndexMap α β) :=
    indexMap_eq_of_entries_eq (ofList_entries_of_nodup es hnd)
  simp only [IndexMap.deserialize, if_neg hz, hdec, hof]

theorem claim_C8_witness :
    vecDeserialize (pairCodec u32Codec u32Codec)
        [2, 0, 0, 0, 5, 0, 0, 0, 6, 0, 0, 0, 1, 0, 0, 0, 2, 0, 0, 0] =
      (Except.ok [((5 : U32), (6 : U32)), (1, 2)], []) ∧
    IndexMap.deserialize u32Codec u32Codec
        [2, 0, 0, 0, 5, 0, 0, 0, 6, 0, 0, 0, 1, 0, 0, 0, 2, 0, 0, 0] =
      (Except.ok (⟨[(5, 6), (1, 2)]⟩ : IndexMap U32 U32), []) :=
  ⟨rfl, claim_C8 u32Codec u32Codec (by decide)
    [2, 0, 0, 0, 5, 0, 0, 0, 6, 0, 0, 0, 1, 0, 0, 0, 2, 0, 0, 0]
    [((5 : U32), (6 : U32)), (1, 2)] [] rfl (by decide)⟩

/-- C9: under the canonical-sort variant, re-encoding after a round trip is
idempotent: decoding the encoding of M and encoding the result reproduces
the bytes of encode(M), because re-encoding sorts again. -/
theorem claim_C9 [LinearOrder α] (ck : Codec α) (cv : Codec β)
    (hk : ck.Lawful) (hv : cv.Lawful) (hz : ¬ck.size = 0)
    (m : IndexMap α β) (hnd : m.keys.Nodup)
    (hlen : m.entries.length < 4294967296) :
    ∃ m2 : IndexMap α β,
      IndexMap.deserialize ck cv ((IndexMap.serialize ck cv m []).2) =
        (Except.ok m2, []) ∧
      IndexMap.serialize ck cv m2 [] = IndexMap.serialize ck cv m [] := by
  refine ⟨IndexMap.ofList (List.insertionSort keyLE m.entries),
    map_decode_encode ck cv hk hv hz m hlen, ?_⟩
  have he : (IndexMap.ofList (List.insertionSort keyLE m.entries)).entries =
      List.insertionSort keyLE m.entries :=
    ofList_entries_of_nodup _ (keys_sorted_nodup hnd)
  have hlen2 :
      (IndexMap.ofList (List.insertionSort keyLE m.entries)).entries.length <
        4294967296 := by
    rw [he, List.length_insertionSort]
    exact hlen
  rw [map_serialize_eq ck cv hz _ [] hlen2, map_serialize_eq ck cv hz m [] hlen,
    he, List.length_insertionSort,
    List.Sorted.insertionSort_eq (List.sorted_insertionSort keyLE m.entries)]

theorem claim_C9_witness :
    ∃ m2 : IndexMap U32 U32,
      IndexMap.deserialize u32Codec u32Codec
          ((IndexMap.serialize u32Codec u32Codec
            (⟨[(3, 4), (1, 2)]⟩ : IndexMap U32 U32) []).2) =
        (Except.ok m2, []) ∧
      IndexMap.serialize u32Codec u32Codec m2 [] =
        IndexMap.serialize u32Codec u32Codec
          (⟨[(3, 4), (1, 2)]⟩ : IndexMap U32 U32) [] :=
  claim_C9 u32Codec u32Codec u32Codec_lawful u32Codec_lawful (by decide)
    ⟨[(3, 4), (1, 2)]⟩ (by decide) (by decide)

theorem lastVal_concat_shape [DecidableEq α] (k : α) (v1 v2 : β)
    (l1 l2 l3 : List (α × β)) (h3 : k ∉ l3.map Prod.fst) :
    (l1 ++ (k, v1) :: l2 ++ (k, v2) :: l3).foldl
        (fun acc p => if p.1 = k then some p.2 else acc) none = some v2 := by
  rw [List.foldl_append, List.foldl_cons, List.foldl_append, List.foldl_cons,
    foldl_lastVal_of_not_mem l3 _ h3]
  simp

/-- C6: decoding a byte stream that contains two entry records sharing the
same key yields a container in which that key is present exactly once and
maps to the value of the later (second) entry. -/
theorem claim_C6 [DecidableEq α] (ck : Codec α) (cv : Codec β)
    (hk : ck.Lawful) (hv : cv.Lawful) (hz : ¬ck.size = 0)
    (l1 l2 l3 : List (α × β)) (k : α) (v1 v2 : β)
    (h1 : k ∉ l1.map Prod.fst) (h2 : k ∉ l2.map Prod.fst)
    (h3 : k ∉ l3.map Prod.fst)
    (hlen : (l1 ++ (k, v1) :: l2 ++ (k, v2) :: l3).length < 4294967296) :
    ∃ m : IndexMap α β,
      IndexMap.deserialize ck cv
          (u32LE (l1 ++ (k, v1) :: l2 ++ (k, v2) :: l3).length ++
            (l1 ++ (k, v1) :: l2 ++ (k, v2) :: l3).flatMap
              (fun p => ck.enc p.1 ++ cv.enc p.2)) =
        (Except.ok m, []) ∧
      m.keys.count k = 1 ∧ m.get? k = some v2 := by
  have hget :
      (IndexMap.ofList (l1 ++ (k, v1) :: l2 ++ (k, v2) :: l3)).get? k = some v2 := by
    simp only [IndexMap.ofList]
    rw [get?_foldl_insert (l1 ++ (k, v1) :: l2 ++ (k, v2) :: l3) ⟨[]⟩ k,
      show (⟨[]⟩ : IndexMap α β).get? k = none from rfl]
    exact lastVal_concat_shape k v1 v2 l1 l2 l3 h3
  refine ⟨IndexMap.ofList (l1 ++ (k, v1) :: l2 ++ (k, v2) :: l3),
    map_deserialize_enc ck cv hk hv hz _ hlen, ?_, hget⟩
  exact List.count_eq_one_of_mem (nodup_keys_ofList _) (mem_keys_of_get?_eq_some hget)

theorem claim_C6_witness :
    ∃ m : IndexMap U32 U32,
      IndexMap.deserialize u32Codec u32Codec
          (u32LE ([((9 : U32), (1 : U32))] ++ (7, 5) :: [(8, 2)] ++
              (7, 6) :: [(4, 3)]).length ++
            ([((9 : U32), (1 : U32))] ++ (7, 5) :: [(8, 2)] ++
              (7, 6) :: [(4, 3)]).flatMap
              (fun p => u32Codec.enc p.1 ++ u32Codec.enc p.2)) =
        (Except.ok m, []) ∧
      m.keys.count 7 = 1 ∧ m.get? 7 = some 6 :=
  claim_C6 u32Codec u32Codec u32Codec_lawful u32Codec_lawful (by decide)
    [((9 : U32), (1 : U32))] [(8, 2)] [(4, 3)] 7 5 6
    (by decide) (by decide) (by decide) (by decide)

/-- C10: when the decoded stream contains duplicate keys, the surviving key
occupies the enumeration position of its first occurrence in the stream while
holding the later occurrence's value — the later duplicate does not move the
key to a later position. -/
theorem claim_C10 [DecidableEq α] (ck : Codec α) (cv : Codec β)
    (hk : ck.Lawful) (hv : cv.Lawful) (hz : ¬ck.size = 0)
    (l1 l2 l3 : List (α × β)) (k : α) (v1 v2 : β)
    (hnd : ((l1 ++ l2 ++ l3).map Prod.fst).Nodup)
    (hknot : k ∉ (l1 ++ l2 ++ l3).map Prod.fst)
    (hlen : (l1 ++ (k, v1) :: l2 ++ (k, v2) :: l3).length < 4294967296) :
    IndexMap.deserialize ck cv
        (u32LE (l1 ++ (k, v1) :: l2 ++ (k, v2) :: l3).length ++
          (l1 ++ (k, v1) :: l2 ++ (k, v2) :: l3).flatMap
            (fun p => ck.enc p.1 ++ cv.enc p.2)) =
      (Except.ok (⟨l1 ++ (k, v2) :: l2 ++ l3⟩ : IndexMap α β), []) := by
  simp only [List.map_append, List.nodup_append] at hnd
  obtain ⟨⟨hnd1, hnd2, hd12⟩, hnd3, hd123⟩ := hnd
  rw [List.disjoint_append_left] at hd123
  obtain ⟨hd13, hd23⟩ := hd123
  simp only [List.map_append, List.mem_append, not_or] at hknot
  obtain ⟨⟨hk1, hk2⟩, hk3⟩ := hknot
  have e1 : List.foldl (fun m p => m.insert p.1 p.2) (⟨[]⟩ : IndexMap α β) l1 =
      ⟨l1⟩ := by
    apply indexMap_eq_of_entries_eq
    simpa using foldl_insert_entries l1 [] hnd1 (by simp)
  have e2 : (⟨l1⟩ : IndexMap α β).insert k v1 = ⟨l1 ++ [(k, v1)]⟩ := by
    simp only [IndexMap.insert]
    rw [insertEntry_of_not_mem v1 l1 hk1]
  have e3 : List.foldl (fun m p => m.insert p.1 p.2)
      (⟨l1 ++ [(k, v1)]⟩ : IndexMap α β) l2 = ⟨(l1 ++ [(k, v1)]) ++ l2⟩ := by
    apply indexMap_eq_of_entries_eq
    apply foldl_insert_entries l2 (l1 ++ [(k, v1)]) hnd2
    intro k2 hk2mem
    simp only [List.map_append, List.map_cons, List.map_nil, List.mem_append,
      List.mem_singleton, not_or]
    exact ⟨fun h => hd12 h hk2mem, fun h => hk2 (h ▸ hk2mem)⟩
  have e4 : (⟨(l1 ++ [(k, v1)]) ++ l2⟩ : IndexMap α β).insert k v2 =
      ⟨l1 ++ (k, v2) :: l2⟩ := by
    simp only [IndexMap.insert]
    rw [show (l1 ++ [(k, v1)]) ++ l2 = l1 ++ (k, v1) :: l2 by simp]
    rw [insertEntry_replace k v1 v2 l1 l2 hk1]
  have e5 : List.foldl (fun m p => m.insert p.1 p.2)
      (⟨l1 ++ (k, v2) :: l2⟩ : IndexMap α β) l3 = ⟨(l1 ++ (k, v2) :: l2) ++ l3⟩ := by
    apply indexMap_eq_of_entries_eq
    apply foldl_insert_entries l3 (l1 ++ (k, v2) :: l2) hnd3
    intro k3 hk3mem
    simp only [List.map_append, List.map_cons, List.mem_append, List.mem_cons,
      not_or]
    exact ⟨fun h => hd13 h hk3mem, fun h => hk3 (h ▸ hk3mem),
      fun h => hd23 h hk3mem⟩
  have hof : IndexMap.ofList (l1 ++ (k, v1) :: l2 ++ (k, v2) :: l3) =
      (⟨l1 ++ (k, v2) :: l2 ++ l3⟩ : IndexMap α β) := by
    simp only [IndexMap.ofList, List.foldl_append, List.foldl_cons]
    rw [e1, e2, e3, e4, e5]
  rw [map_deserialize_enc ck cv hk hv hz _ hlen, hof]

theorem claim_C10_witness :
    IndexMap.deserialize u32Codec u32Codec
        (u32LE ([((9 : U32), (1 : U32))] ++ (7, 5) :: [(8, 2)] ++
            (7, 6) :: [(4, 3)]).length ++
          ([((9 : U32), (1 : U32))] ++ (7, 5) :: [(8, 2)] ++
            (7, 6) :: [(4, 3)]).flatMap
            (fun p => u32Codec.enc p.1 ++ u32Codec.enc p.2)) =
      (Except.ok
        (⟨[((9 : U32), (1 : U32))] ++ (7, 6) :: [(8, 2)] ++ [(4, 3)]⟩ :
          IndexMap U32 U32), []) :=
  claim_C10 u32Codec u32Codec u32Codec_lawful u32Codec_lawful (by decide)
    [((9 : U32), (1 : U32))] [(8, 2)] [(4, 3)] 7 5 6
    (by decide) (by decide) (by decide)

end IndexmapBorsh
